import Mathlib

/-!
Verification development for the concurrency-control core described in the
repository's specification: a reader/writer lock with an Upgradable mode and
writer-priority ("greedy") queuing, a hierarchical per-thread Locker with
recursion accounting and temporary release, and a capacity-bounded ticket
(admission) controller.  The repository's own sources contain only the test
harness (src/src/mongo/dbtests/threadedtests.cpp); the implementations the
tests exercise (RWLock, RWLockRecursiveNongreedy, LockerImpl, TicketHolder)
are not part of the reviewed sources, so every definition below is modelled
from the specification's description of those components.
-/

namespace MongoConc

/-- Thread identifier. -/
abbrev Tid := Nat

/-- Modelled from the spec: the LockMode enum {None, Shared, Upgradable,
Exclusive} of the missing lock implementation (spec section 3). -/
inductive LockMode where
  | none
  | shared
  | upgradable
  | exclusive
deriving DecidableEq, Repr

/-- Numeric rank of a mode in the lattice order None<Shared<Upgradable<Exclusive. -/
def LockMode.toNat : LockMode → Nat
  | .none => 0
  | .shared => 1
  | .upgradable => 2
  | .exclusive => 3

/-- Modelled from the spec: the lattice order None<Shared<Upgradable<Exclusive
(spec section 3). -/
def modeLE (a b : LockMode) : Bool :=
  a.toNat ≤ b.toNat

/-- Least upper bound of two modes in the lattice order. -/
def modeMax (a b : LockMode) : LockMode :=
  if modeLE a b then b else a

/-- Modelled from the spec: pairwise mode compatibility of the missing lock
implementation.  Shared∘Shared and Shared∘Upgradable are compatible; anything
with Exclusive is incompatible; Upgradable∘Upgradable is incompatible
(spec section 3). -/
def compatible : LockMode → LockMode → Bool
  | .exclusive, _ => false
  | _, .exclusive => false
  | .upgradable, .upgradable => false
  | _, _ => true

theorem modeMax_self (a : LockMode) : modeMax a a = a := by
  cases a <;> rfl

theorem modeMax_absorb (a b : LockMode) : modeMax (modeMax a b) b = modeMax a b := by
  cases a <;> cases b <;> rfl

theorem modeLE_modeMax_left (a b : LockMode) : modeLE a (modeMax a b) = true := by
  cases a <;> cases b <;> rfl

theorem modeLE_trans {a b c : LockMode} (h1 : modeLE a b = true) (h2 : modeLE b c = true) :
    modeLE a c = true := by
  cases a <;> cases b <;> cases c <;> simp_all [modeLE, LockMode.toNat]

theorem modeMax_le {a b c : LockMode} (h1 : modeLE a c = true) (h2 : modeLE b c = true) :
    modeLE (modeMax a b) c = true := by
  cases a <;> cases b <;> cases c <;> simp_all [modeLE, modeMax, LockMode.toNat]

/-- Modelled from the spec: RWLockState, the per-resource state of the missing
Reader/Writer Lock implementation — current holders (thread, mode), plus a
wait set partitioned by requested mode (spec section 3). -/
structure RWLockState where
  holders : List (Tid × LockMode)
  pendingShared : List Tid
  pendingExclusive : List Tid
  pendingUpgradable : List Tid
deriving DecidableEq, Repr

/-- The empty (fully free, no-waiters) lock state. -/
def init : RWLockState := ⟨[], [], [], []⟩

/-- An observable instant of the lock's life: a request registers a waiter, a
grant is the instant the corresponding blocking lock call returns, unlock
releases a hold, upgrade is upgradeToExclusive. -/
inductive Event where
  | reqShared (t : Tid)
  | reqExclusive (t : Tid)
  | reqUpgradable (t : Tid)
  | grantShared (t : Tid)
  | grantExclusive (t : Tid)
  | grantUpgradable (t : Tid)
  | unlock (t : Tid) (m : LockMode)
  | upgrade (t : Tid)
deriving DecidableEq, Repr

/-- Whether an event is an upgradeToExclusive step. -/
def isUpgradeEvent : Event → Bool
  | .upgrade _ => true
  | _ => false

/-- Modelled from the spec: one transition of the missing Reader/Writer Lock
(spec section 4.1).  The `greedy` flag selects between the writer-priority
RWLock (a Shared grant additionally requires no pending Exclusive request)
and the RWLockRecursiveNongreedy variant (no such requirement).  A grant
requires compatibility with every current holder; an Exclusive grant hence
requires the resource fully free; an Upgradable grant is never blocked by
pending writers; upgradeToExclusive requires that no other thread holds
anything (the caller may transiently hold Shared in addition to Upgradable)
and does not consult the pending-writer set. -/
def step (greedy : Bool) (s : RWLockState) : Event → Option RWLockState
  | .reqShared t =>
      if t ∈ s.pendingShared then Option.none
      else some { s with pendingShared := s.pendingShared ++ [t] }
  | .reqExclusive t =>
      if t ∈ s.pendingExclusive then Option.none
      else some { s with pendingExclusive := s.pendingExclusive ++ [t] }
  | .reqUpgradable t =>
      if t ∈ s.pendingUpgradable then Option.none
      else some { s with pendingUpgradable := s.pendingUpgradable ++ [t] }
  | .grantShared t =>
      if t ∈ s.pendingShared ∧ (greedy = true → s.pendingExclusive = []) ∧
          (∀ h ∈ s.holders, compatible LockMode.shared h.2 = true) then
        some { s with holders := (t, LockMode.shared) :: s.holders,
                      pendingShared := s.pendingShared.erase t }
      else Option.none
  | .grantExclusive t =>
      if t ∈ s.pendingExclusive ∧
          (∀ h ∈ s.holders, compatible LockMode.exclusive h.2 = true) then
        some { s with holders := (t, LockMode.exclusive) :: s.holders,
                      pendingExclusive := s.pendingExclusive.erase t }
      else Option.none
  | .grantUpgradable t =>
      if t ∈ s.pendingUpgradable ∧
          (∀ h ∈ s.holders, compatible LockMode.upgradable h.2 = true) then
        some { s with holders := (t, LockMode.upgradable) :: s.holders,
                      pendingUpgradable := s.pendingUpgradable.erase t }
      else Option.none
  | .unlock t m =>
      if (t, m) ∈ s.holders then
        some { s with holders := s.holders.erase (t, m) }
      else Option.none
  | .upgrade t =>
      if (t, LockMode.upgradable) ∈ s.holders ∧ (∀ h ∈ s.holders, h.1 = t) then
        some { s with holders :=
                 (t, LockMode.exclusive) :: s.holders.erase (t, LockMode.upgradable) }
      else Option.none

/-- Run a sequence of events from a state; fails if any guard fails. -/
def run (greedy : Bool) (s : RWLockState) : List Event → Option RWLockState
  | [] => some s
  | e :: es =>
      match step greedy s e with
      | some s1 => run greedy s1 es
      | Option.none => Option.none

theorem run_append (greedy : Bool) (tr1 tr2 : List Event) (s : RWLockState) :
    run greedy s (tr1 ++ tr2) =
      match run greedy s tr1 with
      | some m => run greedy m tr2
      | Option.none => Option.none := by
  induction tr1 generalizing s with
  | nil => simp [run]
  | cons e es ih =>
      simp only [List.cons_append, run]
      cases step greedy s e with
      | none => rfl
      | some s1 => exact ih s1

/-- Symmetry of the compatibility matrix. -/
theorem compatible_symm (a b : LockMode) : compatible a b = compatible b a := by
  cases a <;> cases b <;> rfl

theorem compatible_exclusive_left (m : LockMode) : compatible LockMode.exclusive m = false := by
  cases m <;> rfl

theorem compatible_exclusive_right (m : LockMode) : compatible m LockMode.exclusive = false := by
  cases m <;> rfl

/-- Current holders are pairwise compatible (in both orientations). -/
def HoldersCompat (s : RWLockState) : Prop :=
  s.holders.Pairwise
    (fun a b => compatible a.2 b.2 = true ∧ compatible b.2 a.2 = true)

theorem step_preserves_compat (greedy : Bool) (s s1 : RWLockState) (e : Event)
    (he : isUpgradeEvent e = false) (hs : step greedy s e = some s1)
    (h : HoldersCompat s) : HoldersCompat s1 := by
  cases e with
  | reqShared t =>
      simp only [step] at hs
      split at hs
      · exact absurd hs (by simp)
      · injection hs with h1; subst h1; exact h
  | reqExclusive t =>
      simp only [step] at hs
      split at hs
      · exact absurd hs (by simp)
      · injection hs with h1; subst h1; exact h
  | reqUpgradable t =>
      simp only [step] at hs
      split at hs
      · exact absurd hs (by simp)
      · injection hs with h1; subst h1; exact h
  | grantShared t =>
      simp only [step] at hs
      split at hs
      case isTrue hg =>
        injection hs with h1; subst h1
        refine List.pairwise_cons.2 ⟨?_, h⟩
        intro b hb
        exact ⟨hg.2.2 b hb, by rw [compatible_symm]; exact hg.2.2 b hb⟩
      case isFalse => exact absurd hs (by simp)
  | grantExclusive t =>
      simp only [step] at hs
      split at hs
      case isTrue hg =>
        injection hs with h1; subst h1
        refine List.pairwise_cons.2 ⟨?_, h⟩
        intro b hb
        exact ⟨hg.2 b hb, by rw [compatible_symm]; exact hg.2 b hb⟩
      case isFalse => exact absurd hs (by simp)
  | grantUpgradable t =>
      simp only [step] at hs
      split at hs
      case isTrue hg =>
        injection hs with h1; subst h1
        refine List.pairwise_cons.2 ⟨?_, h⟩
        intro b hb
        exact ⟨hg.2 b hb, by rw [compatible_symm]; exact hg.2 b hb⟩
      case isFalse => exact absurd hs (by simp)
  | unlock t m =>
      simp only [step] at hs
      split at hs
      case isTrue hg =>
        injection hs with h1; subst h1
        exact List.Pairwise.sublist (List.erase_sublist _ _) h
      case isFalse => exact absurd hs (by simp)
  | upgrade t =>
      exact absurd he (by simp [isUpgradeEvent])

theorem run_preserves_compat (greedy : Bool) (tr : List Event) (s s1 : RWLockState)
    (hrun : run greedy s tr = some s1)
    (hnu : tr.all (fun e => !(isUpgradeEvent e)) = true)
    (h : HoldersCompat s) : HoldersCompat s1 := by
  induction tr generalizing s with
  | nil =>
      simp only [run] at hrun
      injection hrun with h1; subst h1; exact h
  | cons e es ih =>
      simp only [run] at hrun
      simp only [List.all_cons, Bool.and_eq_true, Bool.not_eq_true'] at hnu
      cases hstep : step greedy s e with
      | none => rw [hstep] at hrun; exact absurd hrun (by simp)
      | some sm =>
          rw [hstep] at hrun
          exact ih sm hrun hnu.2 (step_preserves_compat greedy s sm e hnu.1 hstep h)

theorem pairwise_excl_singleton (l : List (Tid × LockMode))
    (hp : l.Pairwise (fun a b => compatible a.2 b.2 = true ∧ compatible b.2 a.2 = true))
    (t : Tid) (hm : (t, LockMode.exclusive) ∈ l) : l = [(t, LockMode.exclusive)] := by
  cases l with
  | nil => cases hm
  | cons a l2 =>
      have hpc := List.pairwise_cons.1 hp
      rcases List.mem_cons.1 hm with ha | hl2
      · subst ha
        cases l2 with
        | nil => rfl
        | cons b l3 =>
            have := (hpc.1 b (List.mem_cons_self _ _)).1
            rw [compatible_exclusive_left] at this
            cases this
      · have := (hpc.1 _ hl2).2
        rw [compatible_exclusive_left] at this
        cases this

theorem pairwise_upg_unique (l : List (Tid × LockMode))
    (hp : l.Pairwise (fun a b => compatible a.2 b.2 = true ∧ compatible b.2 a.2 = true))
    (t u : Tid) (ht : (t, LockMode.upgradable) ∈ l) (hu : (u, LockMode.upgradable) ∈ l) :
    t = u := by
  induction l with
  | nil => cases ht
  | cons a l2 ih =>
      have hpc := List.pairwise_cons.1 hp
      rcases List.mem_cons.1 ht with ha | ht2
      · rcases List.mem_cons.1 hu with hb | hu2
        · rw [← hb] at ha
          exact congrArg Prod.fst ha
        · have := (hpc.1 _ hu2).1
          rw [← ha] at this
          cases this
      · rcases List.mem_cons.1 hu with hb | hu2
        · have := (hpc.1 _ ht2).1
          rw [← hb] at this
          cases this
        · exact ih hpc.2 ht2 hu2

/-- C1: for every sequence of lockShared/lockExclusive/lockUpgradable/unlock
events (no upgrades) on one resource, at no reachable instant does an
Exclusive holder coexist with any other holder, and at no instant do two
distinct Upgradable holders coexist; a Shared holder and an Upgradable holder
may coexist. -/
theorem rwlock_exclusive_isolated (tr : List Event) (s : RWLockState)
    (hrun : run true init tr = some s)
    (hnu : tr.all (fun e => !(isUpgradeEvent e)) = true) :
    (∀ t, (t, LockMode.exclusive) ∈ s.holders → s.holders = [(t, LockMode.exclusive)]) ∧
    (∀ t u, (t, LockMode.upgradable) ∈ s.holders →
       (u, LockMode.upgradable) ∈ s.holders → t = u) ∧
    (∃ tr2 s2, run true init tr2 = some s2 ∧
       (1, LockMode.shared) ∈ s2.holders ∧ (2, LockMode.upgradable) ∈ s2.holders) := by
  have hc : HoldersCompat s :=
    run_preserves_compat true tr init s hrun hnu List.Pairwise.nil
  refine ⟨fun t ht => pairwise_excl_singleton _ hc t ht,
          fun t u ht hu => pairwise_upg_unique _ hc t u ht hu,
          ⟨[Event.reqShared 1, Event.grantShared 1,
            Event.reqUpgradable 2, Event.grantUpgradable 2],
           ⟨[(2, LockMode.upgradable), (1, LockMode.shared)], [], [], []⟩,
           by decide, by decide, by decide⟩⟩

/-- Witness for C1 at a concrete two-event trace. -/
theorem rwlock_exclusive_isolated_witness :
    (∀ t, (t, LockMode.exclusive) ∈
        (RWLockState.mk [(1, LockMode.shared)] [] [] []).holders →
      (RWLockState.mk [(1, LockMode.shared)] [] [] []).holders =
        [(t, LockMode.exclusive)]) ∧
    (∀ t u, (t, LockMode.upgradable) ∈
        (RWLockState.mk [(1, LockMode.shared)] [] [] []).holders →
      (u, LockMode.upgradable) ∈
        (RWLockState.mk [(1, LockMode.shared)] [] [] []).holders → t = u) ∧
    (∃ tr2 s2, run true init tr2 = some s2 ∧
       (1, LockMode.shared) ∈ s2.holders ∧ (2, LockMode.upgradable) ∈ s2.holders) :=
  rwlock_exclusive_isolated [Event.reqShared 1, Event.grantShared 1]
    (RWLockState.mk [(1, LockMode.shared)] [] [] []) (by decide) (by decide)

theorem step_keeps_pendingExcl (greedy : Bool) (s sm : RWLockState) (e : Event) (t : Tid)
    (hne : e ≠ Event.grantExclusive t)
    (hstep : step greedy s e = some sm)
    (hm : t ∈ s.pendingExclusive) : t ∈ sm.pendingExclusive := by
  cases e with
  | reqShared u =>
      simp only [step] at hstep
      split at hstep
      · exact absurd hstep (by simp)
      · injection hstep with h1; subst h1; exact hm
  | reqExclusive u =>
      simp only [step] at hstep
      split at hstep
      · exact absurd hstep (by simp)
      · injection hstep with h1; subst h1; exact List.mem_append.2 (Or.inl hm)
  | reqUpgradable u =>
      simp only [step] at hstep
      split at hstep
      · exact absurd hstep (by simp)
      · injection hstep with h1; subst h1; exact hm
  | grantShared u =>
      simp only [step] at hstep
      split at hstep
      · injection hstep with h1; subst h1; exact hm
      · exact absurd hstep (by simp)
  | grantExclusive u =>
      simp only [step] at hstep
      split at hstep
      · injection hstep with h1; subst h1
        have htu : t ≠ u := by
          intro h
          exact hne (by rw [h])
        exact (List.mem_erase_of_ne htu).2 hm
      · exact absurd hstep (by simp)
  | grantUpgradable u =>
      simp only [step] at hstep
      split at hstep
      · injection hstep with h1; subst h1; exact hm
      · exact absurd hstep (by simp)
  | unlock u m =>
      simp only [step] at hstep
      split at hstep
      · injection hstep with h1; subst h1; exact hm
      · exact absurd hstep (by simp)
  | upgrade u =>
      simp only [step] at hstep
      split at hstep
      · injection hstep with h1; subst h1; exact hm
      · exact absurd hstep (by simp)

theorem pendingExcl_persists (greedy : Bool) (tr : List Event) (s s1 : RWLockState)
    (t : Tid) (hrun : run greedy s tr = some s1)
    (hm : t ∈ s.pendingExclusive) (hout : t ∉ s1.pendingExclusive) :
    Event.grantExclusive t ∈ tr := by
  induction tr generalizing s with
  | nil =>
      simp only [run] at hrun
      injection hrun with h1; subst h1
      exact absurd hm hout
  | cons e es ih =>
      simp only [run] at hrun
      cases hstep : step greedy s e with
      | none => rw [hstep] at hrun; exact absurd hrun (by simp)
      | some sm =>
          rw [hstep] at hrun
          by_cases he : e = Event.grantExclusive t
          · subst he; exact List.mem_cons_self _ _
          · exact List.mem_cons_of_mem _
              (ih sm hrun (step_keeps_pendingExcl greedy s sm e t he hstep hm))

theorem step_keeps_exclHold (greedy : Bool) (s sm : RWLockState) (e : Event) (t : Tid)
    (hne : e ≠ Event.unlock t LockMode.exclusive)
    (hstep : step greedy s e = some sm)
    (hm : (t, LockMode.exclusive) ∈ s.holders) : (t, LockMode.exclusive) ∈ sm.holders := by
  cases e with
  | reqShared u =>
      simp only [step] at hstep
      split at hstep
      · exact absurd hstep (by simp)
      · injection hstep with h1; subst h1; exact hm
  | reqExclusive u =>
      simp only [step] at hstep
      split at hstep
      · exact absurd hstep (by simp)
      · injection hstep with h1; subst h1; exact hm
  | reqUpgradable u =>
      simp only [step] at hstep
      split at hstep
      · exact absurd hstep (by simp)
      · injection hstep with h1; subst h1; exact hm
  | grantShared u =>
      simp only [step] at hstep
      split at hstep
      · injection hstep with h1; subst h1; exact List.mem_cons_of_mem _ hm
      · exact absurd hstep (by simp)
  | grantExclusive u =>
      simp only [step] at hstep
      split at hstep
      · injection hstep with h1; subst h1; exact List.mem_cons_of_mem _ hm
      · exact absurd hstep (by simp)
  | grantUpgradable u =>
      simp only [step] at hstep
      split at hstep
      · injection hstep with h1; subst h1; exact List.mem_cons_of_mem _ hm
      · exact absurd hstep (by simp)
  | unlock u m =>
      simp only [step] at hstep
      split at hstep
      · injection hstep with h1; subst h1
        have hp : (t, LockMode.exclusive) ≠ (u, m) := by
          intro h
          apply hne
          injection h with hu hm2
          rw [← hu, ← hm2]
        exact (List.mem_erase_of_ne hp).2 hm
      · exact absurd hstep (by simp)
  | upgrade u =>
      simp only [step] at hstep
      split at hstep
      · injection hstep with h1; subst h1
        have hp : (t, LockMode.exclusive) ≠ (u, LockMode.upgradable) := by
          intro h
          cases congrArg Prod.snd h
        exact List.mem_cons_of_mem _ ((List.mem_erase_of_ne hp).2 hm)
      · exact absurd hstep (by simp)

theorem exclHold_released (greedy : Bool) (tr : List Event) (s s1 : RWLockState) (t : Tid)
    (hrun : run greedy s tr = some s1)
    (hstart : (t, LockMode.exclusive) ∈ s.holders ∨ Event.grantExclusive t ∈ tr)
    (hend : (t, LockMode.exclusive) ∉ s1.holders) :
    Event.unlock t LockMode.exclusive ∈ tr := by
  induction tr generalizing s with
  | nil =>
      simp only [run] at hrun
      injection hrun with h1; subst h1
      rcases hstart with hm | hg
      · exact absurd hm hend
      · cases hg
  | cons e es ih =>
      simp only [run] at hrun
      cases hstep : step greedy s e with
      | none => rw [hstep] at hrun; exact absurd hrun (by simp)
      | some sm =>
          rw [hstep] at hrun
          by_cases he : e = Event.unlock t LockMode.exclusive
          · subst he; exact List.mem_cons_self _ _
          · refine List.mem_cons_of_mem _ (ih sm hrun ?_)
            rcases hstart with hm | hg
            · exact Or.inl (step_keeps_exclHold greedy s sm e t he hstep hm)
            · rcases List.mem_cons.1 hg with hge | hges
              · left
                rw [← hge] at hstep
                simp only [step] at hstep
                split at hstep
                · injection hstep with h1; subst h1; exact List.mem_cons_self _ _
                · exact absurd hstep (by simp)
              · exact Or.inr hges

theorem grantShared_guard (s sm : RWLockState) (t : Tid)
    (hstep : step true s (Event.grantShared t) = some sm) :
    s.pendingExclusive = [] ∧ ∀ h ∈ s.holders, compatible LockMode.shared h.2 = true := by
  simp only [step] at hstep
  split at hstep
  case isTrue hg => exact ⟨hg.2.1 (by trivial), hg.2.2⟩
  case isFalse => exact absurd hstep (by simp)

/-- C2: writer-priority ("greedy") rule — in the writer-priority lock, if an
Exclusive request by thread tw is pending and a Shared grant later occurs,
then before that Shared grant the pending Exclusive request was granted and
subsequently released; no Shared grant happens while an Exclusive request is
still waiting. -/
theorem writer_priority (tr1 : List Event) (t tw : Tid) (s0 s1 : RWLockState)
    (hpend : tw ∈ s0.pendingExclusive)
    (hrun : run true s0 (tr1 ++ [Event.grantShared t]) = some s1) :
    Event.grantExclusive tw ∈ tr1 ∧ Event.unlock tw LockMode.exclusive ∈ tr1 := by
  rw [run_append] at hrun
  cases hmid : run true s0 tr1 with
  | none => rw [hmid] at hrun; exact absurd hrun (by simp)
  | some sm =>
      rw [hmid] at hrun
      simp only [run] at hrun
      cases hst : step true sm (Event.grantShared t) with
      | none => rw [hst] at hrun; exact absurd hrun (by simp)
      | some s2 =>
          have hg := grantShared_guard sm s2 t hst
          have hgrant : Event.grantExclusive tw ∈ tr1 :=
            pendingExcl_persists true tr1 s0 sm tw hmid hpend (by rw [hg.1]; simp)
          refine ⟨hgrant, exclHold_released true tr1 s0 sm tw hmid (Or.inr hgrant) ?_⟩
          intro hmem
          have hco : compatible LockMode.shared LockMode.exclusive = true := hg.2 _ hmem
          exact absurd hco (by decide)

/-- Witness for C2: thread 1 pending Exclusive, thread 2 pending Shared; the
trace grants and releases the writer before the Shared grant. -/
theorem writer_priority_witness :
    Event.grantExclusive 1 ∈
      [Event.grantExclusive 1, Event.unlock 1 LockMode.exclusive] ∧
    Event.unlock 1 LockMode.exclusive ∈
      [Event.grantExclusive 1, Event.unlock 1 LockMode.exclusive] :=
  writer_priority [Event.grantExclusive 1, Event.unlock 1 LockMode.exclusive] 2 1
    (RWLockState.mk [] [2] [1] []) (RWLockState.mk [(2, LockMode.shared)] [] [] [])
    (by decide) (by decide)

/-- C7: upgradeToExclusive by the Upgradable holder (which may also hold a
transient Shared lock of its own) succeeds in a single step whenever no other
thread holds anything, regardless of the pending Exclusive wait set — a
pending upgrade is not subject to, nor blocked by, the writer-priority rule. -/
theorem upgrade_not_blocked_by_writers (s : RWLockState) (t : Tid)
    (hu : (t, LockMode.upgradable) ∈ s.holders)
    (hown : ∀ h ∈ s.holders, h.1 = t) :
    ∃ s1, step true s (Event.upgrade t) = some s1 ∧
      (t, LockMode.exclusive) ∈ s1.holders ∧
      s1.pendingExclusive = s.pendingExclusive := by
  refine ⟨{ s with holders :=
      (t, LockMode.exclusive) :: s.holders.erase (t, LockMode.upgradable) }, ?_,
      List.mem_cons_self _ _, rfl⟩
  simp only [step]
  rw [if_pos ⟨hu, hown⟩]

/-- Witness for C7: holder of Upgradable plus its own Shared hold, with two
unrelated writers pending. -/
theorem upgrade_not_blocked_by_writers_witness :
    ∃ s1, step true
        (RWLockState.mk [(5, LockMode.upgradable), (5, LockMode.shared)] [] [7, 8] [])
        (Event.upgrade 5) = some s1 ∧
      (5, LockMode.exclusive) ∈ s1.holders ∧
      s1.pendingExclusive =
        (RWLockState.mk [(5, LockMode.upgradable), (5, LockMode.shared)] [] [7, 8] []).pendingExclusive :=
  upgrade_not_blocked_by_writers
    (RWLockState.mk [(5, LockMode.upgradable), (5, LockMode.shared)] [] [7, 8] [])
    5 (by decide) (by decide)

/-- Modelled from the spec: whether a request in mode m could be granted right
now (the zero-timeout probe of the missing tryLock implementation, spec
section 4.1): all current holders must be compatible, and for a Shared probe
on the writer-priority lock no Exclusive request may be pending. -/
def grantableNow (greedy : Bool) (s : RWLockState) (m : LockMode) : Bool :=
  s.holders.all (fun h => compatible m h.2) &&
    (match m with
     | .shared => !greedy || s.pendingExclusive.isEmpty
     | _ => true)

/-- Modelled from the spec: tryLock(mode, timeout) with a zero timeout — a
non-blocking probe that returns a boolean outcome instead of blocking
(spec section 4.1). -/
def tryLock (greedy : Bool) (s : RWLockState) (t : Tid) (m : LockMode) :
    Bool × RWLockState :=
  if grantableNow greedy s m then
    (true, { s with holders := (t, m) :: s.holders })
  else (false, s)

/-- C8: a zero-timeout tryLock issued while an incompatible holder exists
(for example Exclusive against a present Shared holder) returns false, leaves
the lock state unchanged, and leaves the caller without a hold. -/
theorem tryLock_fails_on_conflict (greedy : Bool) (s : RWLockState) (t : Tid)
    (m : LockMode) (h : Tid × LockMode) (hmem : h ∈ s.holders)
    (hinc : compatible m h.2 = false) (hnot : (t, m) ∉ s.holders) :
    (tryLock greedy s t m).1 = false ∧ (tryLock greedy s t m).2 = s ∧
      (t, m) ∉ (tryLock greedy s t m).2.holders := by
  have hall : s.holders.all (fun h2 => compatible m h2.2) = false := by
    cases hA : s.holders.all (fun h2 => compatible m h2.2) with
    | false => rfl
    | true =>
        have hx := List.all_eq_true.1 hA h hmem
        rw [hinc] at hx
        cases hx
  have hg : grantableNow greedy s m = false := by
    simp [grantableNow, hall]
  refine ⟨?_, ?_, ?_⟩ <;> simp [tryLock, hg, hnot]

/-- Witness for C8: trying Exclusive while thread 1 holds Shared. -/
theorem tryLock_fails_on_conflict_witness :
    (tryLock true (RWLockState.mk [(1, LockMode.shared)] [] [] [])
        2 LockMode.exclusive).1 = false ∧
    (tryLock true (RWLockState.mk [(1, LockMode.shared)] [] [] [])
        2 LockMode.exclusive).2 = RWLockState.mk [(1, LockMode.shared)] [] [] [] ∧
    (2, LockMode.exclusive) ∉
      (tryLock true (RWLockState.mk [(1, LockMode.shared)] [] [] [])
        2 LockMode.exclusive).2.holders :=
  tryLock_fails_on_conflict true (RWLockState.mk [(1, LockMode.shared)] [] [] [])
    2 LockMode.exclusive (1, LockMode.shared) (by decide) (by decide) (by decide)

/-- C9: in the non-greedy recursive lock variant, a Shared request is granted
immediately while a Shared holder is present even though an Exclusive request
is already pending — and under the writer-priority (greedy) rule the very
same grant is refused. -/
theorem nongreedy_shared_grant (s : RWLockState) (t u : Tid)
    (hpend : t ∈ s.pendingShared)
    (hsh : (u, LockMode.shared) ∈ s.holders)
    (hcompat : ∀ h ∈ s.holders, compatible LockMode.shared h.2 = true)
    (hex : s.pendingExclusive ≠ []) :
    (∃ s1, step false s (Event.grantShared t) = some s1 ∧
       (t, LockMode.shared) ∈ s1.holders) ∧
    step true s (Event.grantShared t) = Option.none := by
  constructor
  · have hstep : step false s (Event.grantShared t) =
        some { s with holders := (t, LockMode.shared) :: s.holders
                      pendingShared := s.pendingShared.erase t } := by
      simp only [step]
      rw [if_pos ⟨hpend, fun hb => absurd hb Bool.false_ne_true, hcompat⟩]
    exact ⟨_, hstep, List.mem_cons_self _ _⟩
  · simp only [step]
    rw [if_neg (fun hc => hex (hc.2.1 (by trivial)))]

/-- Witness for C9: thread 1 holds Shared, thread 3 has a pending Exclusive
request, thread 2 requests Shared. -/
theorem nongreedy_shared_grant_witness :
    (∃ s1, step false (RWLockState.mk [(1, LockMode.shared)] [2] [3] [])
        (Event.grantShared 2) = some s1 ∧ (2, LockMode.shared) ∈ s1.holders) ∧
    step true (RWLockState.mk [(1, LockMode.shared)] [2] [3] [])
      (Event.grantShared 2) = Option.none :=
  nongreedy_shared_grant (RWLockState.mk [(1, LockMode.shared)] [2] [3] []) 2 1
    (by decide) (by decide) (by decide) (by decide)

/-- Modelled from the spec: the state of the missing TicketHolder (Admission
Controller) — a fixed capacity, the outstanding-ticket count, and the
externally observed maximum concurrently-admitted count (the test harness's
maxRooms bookkeeping, spec sections 3 and 4.3). -/
structure TicketState where
  capacity : Nat
  outstanding : Int
  maxAdmitted : Int
deriving DecidableEq, Repr

/-- An admission (waitForTicket returning) or a release by the scoped releaser. -/
inductive TicketEvent where
  | acquire
  | release
deriving DecidableEq, Repr

/-- Modelled from the spec: one transition of the missing TicketHolder.
waitForTicket admits only while outstanding < capacity (check-and-increment
is one atomic step); the scoped releaser decrements, and a release without a
matching acquire is a usage error, hence guarded (spec sections 4.3, 5, 7). -/
def ticketStep (s : TicketState) : TicketEvent → Option TicketState
  | .acquire =>
      if s.outstanding < (s.capacity : Int) then
        some ⟨s.capacity, s.outstanding + 1, max s.maxAdmitted (s.outstanding + 1)⟩
      else Option.none
  | .release =>
      if 0 < s.outstanding then
        some ⟨s.capacity, s.outstanding - 1, s.maxAdmitted⟩
      else Option.none

/-- Run a sequence of ticket events. -/
def ticketRun (s : TicketState) : List TicketEvent → Option TicketState
  | [] => some s
  | e :: es =>
      match ticketStep s e with
      | some s1 => ticketRun s1 es
      | Option.none => Option.none

/-- A freshly constructed TicketHolder of capacity c. -/
def ticketInit (c : Nat) : TicketState := ⟨c, 0, 0⟩

/-- The Admission Controller invariant: 0 ≤ outstanding ≤ capacity, and the
observed maximum admitted count also lies in [0, capacity]. -/
def TicketInv (s : TicketState) : Prop :=
  0 ≤ s.outstanding ∧ s.outstanding ≤ (s.capacity : Int) ∧
    s.maxAdmitted ≤ (s.capacity : Int) ∧ 0 ≤ s.maxAdmitted

theorem ticketStep_inv (s s1 : TicketState) (e : TicketEvent)
    (hstep : ticketStep s e = some s1) (h : TicketInv s) :
    TicketInv s1 ∧ s1.capacity = s.capacity := by
  obtain ⟨h0, hcap, hmax, hmax0⟩ := h
  cases e with
  | acquire =>
      simp only [ticketStep] at hstep
      split at hstep
      case isTrue hlt =>
        injection hstep with h1; subst h1
        refine ⟨⟨?_, ?_, ?_, ?_⟩, rfl⟩ <;> dsimp only
        · omega
        · omega
        · exact max_le hmax (by omega)
        · exact le_trans (by omega : (0 : Int) ≤ s.outstanding + 1) (le_max_right _ _)
      case isFalse => exact absurd hstep (by simp)
  | release =>
      simp only [ticketStep] at hstep
      split at hstep
      case isTrue hpos =>
        injection hstep with h1; subst h1
        refine ⟨⟨?_, ?_, ?_, ?_⟩, rfl⟩ <;> dsimp only
        · omega
        · omega
        · exact hmax
        · exact hmax0
      case isFalse => exact absurd hstep (by simp)

theorem ticketRun_inv (tr : List TicketEvent) (s s1 : TicketState)
    (hrun : ticketRun s tr = some s1) (h : TicketInv s) :
    TicketInv s1 ∧ s1.capacity = s.capacity := by
  induction tr generalizing s with
  | nil =>
      simp only [ticketRun] at hrun
      injection hrun with h1; subst h1
      exact ⟨h, rfl⟩
  | cons e es ih =>
      simp only [ticketRun] at hrun
      cases hstep : ticketStep s e with
      | none => rw [hstep] at hrun; exact absurd hrun (by simp)
      | some sm =>
          rw [hstep] at hrun
          have hm := ticketStep_inv s sm e hstep h
          have hr := ih sm hrun hm.1
          exact ⟨hr.1, hr.2.trans hm.2⟩

theorem ticketRun_append (tr1 tr2 : List TicketEvent) (s : TicketState) :
    ticketRun s (tr1 ++ tr2) =
      match ticketRun s tr1 with
      | some m => ticketRun m tr2
      | Option.none => Option.none := by
  induction tr1 generalizing s with
  | nil => simp [ticketRun]
  | cons e es ih =>
      simp only [List.cons_append, ticketRun]
      cases ticketStep s e with
      | none => rfl
      | some s1 => exact ih s1

/-- One release/acquire handover cycle at saturation, repeated n times. -/
def relAcqCycles : Nat → List TicketEvent
  | 0 => []
  | n + 1 => TicketEvent.release :: TicketEvent.acquire :: relAcqCycles n

/-- A saturating interleaving of the concrete scenario's workload — 10 worker
threads, 1000 acquire/hold/release cycles each, against capacity 3: three
admissions fill the holder, then 9997 handover cycles, then the final three
releases. -/
def hotelTrace : List TicketEvent :=
  [TicketEvent.acquire, TicketEvent.acquire, TicketEvent.acquire] ++
    (relAcqCycles 9997 ++
      [TicketEvent.release, TicketEvent.release, TicketEvent.release])

theorem ticketRun_cycles (n : Nat) :
    ticketRun ⟨3, 3, 3⟩ (relAcqCycles n) = some ⟨3, 3, 3⟩ := by
  induction n with
  | zero => rfl
  | succ k ih =>
      have h1 : ticketStep ⟨3, 3, 3⟩ TicketEvent.release = some ⟨3, 2, 3⟩ := by decide
      have h2 : ticketStep ⟨3, 2, 3⟩ TicketEvent.acquire = some ⟨3, 3, 3⟩ := by decide
      show ticketRun ⟨3, 3, 3⟩
        (TicketEvent.release :: TicketEvent.acquire :: relAcqCycles k) = some ⟨3, 3, 3⟩
      simp only [ticketRun, h1, h2]
      exact ih

theorem count_acquire_cycles (n : Nat) :
    (relAcqCycles n).count TicketEvent.acquire = n := by
  induction n with
  | zero => rfl
  | succ k ih => simp [relAcqCycles, List.count_cons, ih]

theorem count_release_cycles (n : Nat) :
    (relAcqCycles n).count TicketEvent.release = n := by
  induction n with
  | zero => rfl
  | succ k ih => simp [relAcqCycles, List.count_cons, ih]

theorem ticketRun_hotelTrace : ticketRun (ticketInit 3) hotelTrace = some ⟨3, 0, 3⟩ := by
  have h0 : ticketRun (ticketInit 3)
      [TicketEvent.acquire, TicketEvent.acquire, TicketEvent.acquire] =
        some ⟨3, 3, 3⟩ := by decide
  have h2 : ticketRun ⟨3, 3, 3⟩
      [TicketEvent.release, TicketEvent.release, TicketEvent.release] =
        some ⟨3, 0, 3⟩ := by decide
  rw [hotelTrace, ticketRun_append, h0]
  show ticketRun ⟨3, 3, 3⟩
    (relAcqCycles 9997 ++
      [TicketEvent.release, TicketEvent.release, TicketEvent.release]) = some ⟨3, 0, 3⟩
  rw [ticketRun_append, ticketRun_cycles]
  exact h2

/-- C3: Admission Controller capacity bound — along every execution of a
TicketHolder of capacity c, the outstanding count stays within [0, c] and the
observed maximum admitted count never exceeds c; moreover the concrete
capacity-3 scenario workload (10000 acquire/release cycles, a saturating
interleaving) ends balanced with the observed maximum exactly 3. -/
theorem ticket_capacity_bound (c : Nat) (tr : List TicketEvent) (s : TicketState)
    (hrun : ticketRun (ticketInit c) tr = some s) :
    (0 ≤ s.outstanding ∧ s.outstanding ≤ (c : Int) ∧ s.maxAdmitted ≤ (c : Int)) ∧
    (ticketRun (ticketInit 3) hotelTrace = some ⟨3, 0, 3⟩ ∧
      hotelTrace.count TicketEvent.acquire = 10000 ∧
      hotelTrace.count TicketEvent.release = 10000) := by
  have hinv := ticketRun_inv tr (ticketInit c) s hrun
    ⟨le_refl 0, by simp [ticketInit], by simp [ticketInit], le_refl 0⟩
  have hcap : s.capacity = c := hinv.2
  refine ⟨⟨hinv.1.1, by rw [← hcap]; exact hinv.1.2.1, by rw [← hcap]; exact hinv.1.2.2.1⟩,
    ticketRun_hotelTrace, ?_, ?_⟩
  · simp [hotelTrace, List.count_append, count_acquire_cycles, List.count_cons]
  · simp [hotelTrace, List.count_append, count_release_cycles, List.count_cons]

/-- Witness for C3 after a single admission into a capacity-3 holder. -/
theorem ticket_capacity_bound_witness :
    (0 ≤ (TicketState.mk 3 1 1).outstanding ∧
      (TicketState.mk 3 1 1).outstanding ≤ ((3 : Nat) : Int) ∧
      (TicketState.mk 3 1 1).maxAdmitted ≤ ((3 : Nat) : Int)) ∧
    (ticketRun (ticketInit 3) hotelTrace = some ⟨3, 0, 3⟩ ∧
      hotelTrace.count TicketEvent.acquire = 10000 ∧
      hotelTrace.count TicketEvent.release = 10000) :=
  ticket_capacity_bound 3 [TicketEvent.acquire] (TicketState.mk 3 1 1) (by decide)

/-- Modelled from the spec: ResourceId — the singleton Global scope or a
named child scope such as a database name (spec section 3). -/
inductive ScopeId where
  | globalScope
  | dbScope (name : String)
deriving DecidableEq, Repr

/-- One frame of a Locker's stack: {ResourceId, LockMode, acquisitionCount}
(spec section 3, LockerState). -/
structure Frame where
  scope : ScopeId
  mode : LockMode
  count : Nat
deriving DecidableEq, Repr

/-- Modelled from the spec: LockerState of the missing hierarchical Locker —
the ordered stack of held frames (innermost last) together with this Locker's
entries into the underlying per-scope Reader/Writer Locks (one entry per
scope actually entered; recursive re-acquisition does not re-enter). -/
structure LockerState where
  frames : List Frame
  rwHolds : List (ScopeId × LockMode)
deriving DecidableEq, Repr

/-- A Locker at the start of a unit of work: nothing held. -/
def emptyLocker : LockerState := ⟨[], []⟩

/-- Locate this Locker's frame for a scope, if any. -/
def findFrame (s : LockerState) (sc : ScopeId) : Option Frame :=
  s.frames.find? (fun f => decide (f.scope = sc))

/-- Recursive re-entry bookkeeping on a held frame: count + 1, recorded mode
raised to the join of old and requested mode. -/
def bumpFrame (sc : ScopeId) (m : LockMode) (f : Frame) : Frame :=
  if f.scope = sc then ⟨f.scope, modeMax f.mode m, f.count + 1⟩ else f

/-- Raise the recorded mode of the matching underlying hold. -/
def bumpHold (sc : ScopeId) (m : LockMode) (h : ScopeId × LockMode) :
    ScopeId × LockMode :=
  if h.1 = sc then (h.1, modeMax h.2 m) else h

/-- Mode raise (without a count change) on a held frame. -/
def raiseFrame (sc : ScopeId) (m : LockMode) (f : Frame) : Frame :=
  if f.scope = sc then ⟨f.scope, modeMax f.mode m, f.count⟩ else f

/-- Modelled from the spec: the Locker's core acquisition of one scope — if
the scope is already held, increment the existing frame's acquisitionCount
(and raise its recorded mode if a stronger one is requested) without
re-entering the underlying lock; otherwise push a fresh frame and enter the
scope's Reader/Writer Lock once (spec sections 3 and 4.2). -/
def acquire (sc : ScopeId) (m : LockMode) (s : LockerState) : LockerState :=
  match findFrame s sc with
  | some _ => ⟨s.frames.map (bumpFrame sc m), s.rwHolds.map (bumpHold sc m)⟩
  | Option.none => ⟨s.frames ++ [⟨sc, m, 1⟩], s.rwHolds ++ [(sc, m)]⟩

/-- Modelled from the spec: ensure the Global scope is held in a mode ≥ m —
acquire it if not already held, raise the Locker's recorded Global mode if a
stronger mode is now needed, otherwise leave the Locker unchanged
(spec section 4.2, acquireScope). -/
def ensureGlobal (m : LockMode) (s : LockerState) : LockerState :=
  match findFrame s ScopeId.globalScope with
  | some f =>
      if modeLE m f.mode then s
      else ⟨s.frames.map (raiseFrame ScopeId.globalScope m),
            s.rwHolds.map (bumpHold ScopeId.globalScope m)⟩
  | Option.none => acquire ScopeId.globalScope m s

/-- Modelled from the spec: acquireGlobal(mode) (spec section 4.2). -/
def acquireGlobal (m : LockMode) (s : LockerState) : LockerState :=
  acquire ScopeId.globalScope m s

/-- Modelled from the spec: acquireScope(name, mode) — first ensure the
Global scope is held in a mode ≥ mode, then acquire the named child scope
(spec section 4.2). -/
def acquireScope (nm : String) (m : LockMode) (s : LockerState) : LockerState :=
  acquire (ScopeId.dbScope nm) m (ensureGlobal m s)

/-- Decrement the acquisitionCount of the matching frame. -/
def decFrame (sc : ScopeId) (f : Frame) : Frame :=
  if f.scope = sc then ⟨f.scope, f.mode, f.count - 1⟩ else f

/-- Modelled from the spec: release(scope) — decrement the matching frame,
truly releasing the underlying Reader/Writer Lock only when the count
reaches 0, and failing fatally (None) when no matching frame exists
(spec section 4.2). -/
def release (sc : ScopeId) (s : LockerState) : Option LockerState :=
  match findFrame s sc with
  | Option.none => Option.none
  | some f =>
      if f.count ≤ 1 then
        some ⟨s.frames.filter (fun g => decide (g.scope ≠ sc)),
              s.rwHolds.filter (fun h => decide (h.1 ≠ sc))⟩
      else some ⟨s.frames.map (decFrame sc), s.rwHolds⟩

/-- Modelled from the spec: isRecursive() — true iff the top-of-stack scope
already has count > 1 (spec section 4.2). -/
def isRecursive (s : LockerState) : Bool :=
  match s.frames.getLast? with
  | some f => decide (1 < f.count)
  | Option.none => false

/-- Modelled from the spec: isAtLeastReadLocked(scope) — this Locker holds
the scope in mode ≥ Shared (spec section 4.2, query operations). -/
def isAtLeastReadLocked (s : LockerState) (sc : ScopeId) : Bool :=
  match findFrame s sc with
  | some f => modeLE LockMode.shared f.mode
  | Option.none => false

/-- Modelled from the spec: isW()/isWriteLocked() — the Global scope is held
in Exclusive mode (spec section 4.2, query operations). -/
def isW (s : LockerState) : Bool :=
  match findFrame s ScopeId.globalScope with
  | some f => decide (f.mode = LockMode.exclusive)
  | Option.none => false

/-- n successive core acquisitions of the same scope and mode. -/
def acquireN : Nat → ScopeId → LockMode → LockerState → LockerState
  | 0, _, _, s => s
  | n + 1, sc, m, s => acquireN n sc m (acquire sc m s)

/-- n successive acquireScope calls on the same name and mode. -/
def acquireScopeN : Nat → String → LockMode → LockerState → LockerState
  | 0, _, _, s => s
  | n + 1, nm, m, s => acquireScopeN n nm m (acquireScope nm m s)

/-- n successive releases of the same scope. -/
def releaseN : Nat → ScopeId → LockerState → Option LockerState
  | 0, _, s => some s
  | n + 1, sc, s =>
      match release sc s with
      | some s1 => releaseN n sc s1
      | Option.none => Option.none

/-- This Locker's number of underlying Reader/Writer-Lock entries for a scope. -/
def countHolds (s : LockerState) (sc : ScopeId) : Nat :=
  (s.rwHolds.filter (fun h => decide (h.1 = sc))).length

/-- Whether this Locker currently has an underlying hold on a scope. -/
def holdsScope (s : LockerState) (sc : ScopeId) : Bool :=
  s.rwHolds.any (fun h => decide (h.1 = sc))

/-- Modelled from the spec: tempRelease — record every held frame, fully
release all of them (the excursion runs with this Locker holding nothing),
then reacquire every recorded lock in the same mode, restoring each frame's
acquisitionCount (spec sections 4.2 and the Held(count=K) → Unheld →
Held(count=K) state machine of section 4.2). -/
def tempRelease (s : LockerState) : LockerState :=
  s.frames.foldl (fun acc f => acquireN f.count f.scope f.mode acc) emptyLocker

/-- Bookkeeping coherence of a Locker: one underlying hold per frame, in the
frame's recorded mode; counts at least 1; one frame per scope. -/
def LockerWF (s : LockerState) : Prop :=
  s.rwHolds = s.frames.map (fun f => (f.scope, f.mode)) ∧
    (∀ f ∈ s.frames, 1 ≤ f.count) ∧ (s.frames.map Frame.scope).Nodup

theorem map_bumpFrame_id (F : List Frame) (sc : ScopeId) (m : LockMode)
    (h : ∀ f ∈ F, f.scope ≠ sc) : F.map (bumpFrame sc m) = F := by
  induction F with
  | nil => rfl
  | cons a t ih =>
      simp only [List.map_cons]
      rw [show bumpFrame sc m a = a from by
            simp [bumpFrame, h a (List.mem_cons_self a t)],
          ih (fun f hf => h f (List.mem_cons_of_mem a hf))]

theorem map_bumpHold_id (H : List (ScopeId × LockMode)) (sc : ScopeId) (m : LockMode)
    (h : ∀ x ∈ H, x.1 ≠ sc) : H.map (bumpHold sc m) = H := by
  induction H with
  | nil => rfl
  | cons a t ih =>
      simp only [List.map_cons]
      rw [show bumpHold sc m a = a from by
            simp [bumpHold, h a (List.mem_cons_self a t)],
          ih (fun x hx => h x (List.mem_cons_of_mem a hx))]

theorem acquire_fresh (F : List Frame) (H : List (ScopeId × LockMode))
    (sc : ScopeId) (m : LockMode) (hF : ∀ f ∈ F, f.scope ≠ sc) :
    acquire sc m ⟨F, H⟩ = ⟨F ++ [⟨sc, m, 1⟩], H ++ [(sc, m)]⟩ := by
  have hnone : findFrame ⟨F, H⟩ sc = Option.none :=
    List.find?_eq_none.2 (fun f hf => by simp [hF f hf])
  simp [acquire, hnone]

theorem acquire_at_end (F : List Frame) (H : List (ScopeId × LockMode))
    (sc : ScopeId) (m mo : LockMode) (k : Nat)
    (hF : ∀ f ∈ F, f.scope ≠ sc) (hH : ∀ x ∈ H, x.1 ≠ sc) :
    acquire sc m ⟨F ++ [⟨sc, mo, k⟩], H ++ [(sc, mo)]⟩ =
      ⟨F ++ [⟨sc, modeMax mo m, k + 1⟩], H ++ [(sc, modeMax mo m)]⟩ := by
  have hfind : findFrame ⟨F ++ [⟨sc, mo, k⟩], H ++ [(sc, mo)]⟩ sc = some ⟨sc, mo, k⟩ := by
    unfold findFrame
    rw [List.find?_append, List.find?_eq_none.2 (fun f hf => by simp [hF f hf])]
    simp
  simp only [acquire, hfind, Option.isSome_some, if_pos]
  rw [List.map_append, List.map_append, map_bumpFrame_id F sc m hF,
      map_bumpHold_id H sc m hH]
  simp [bumpFrame, bumpHold]

theorem acquireN_at_end (n : Nat) (F : List Frame) (H : List (ScopeId × LockMode))
    (sc : ScopeId) (m : LockMode)
    (hF : ∀ f ∈ F, f.scope ≠ sc) (hH : ∀ x ∈ H, x.1 ≠ sc) :
    ∀ k, acquireN n sc m ⟨F ++ [⟨sc, m, k⟩], H ++ [(sc, m)]⟩ =
      ⟨F ++ [⟨sc, m, k + n⟩], H ++ [(sc, m)]⟩ := by
  induction n with
  | zero => intro k; rfl
  | succ j ih =>
      intro k
      show acquireN j sc m (acquire sc m ⟨F ++ [⟨sc, m, k⟩], H ++ [(sc, m)]⟩) =
        ⟨F ++ [⟨sc, m, k + (j + 1)⟩], H ++ [(sc, m)]⟩
      rw [acquire_at_end F H sc m m k hF hH, modeMax_self, ih (k + 1),
          show k + 1 + j = k + (j + 1) from by omega]

theorem acquireN_fresh (n : Nat) (hn : 1 ≤ n) (F : List Frame)
    (H : List (ScopeId × LockMode)) (sc : ScopeId) (m : LockMode)
    (hF : ∀ f ∈ F, f.scope ≠ sc) (hH : ∀ x ∈ H, x.1 ≠ sc) :
    acquireN n sc m ⟨F, H⟩ = ⟨F ++ [⟨sc, m, n⟩], H ++ [(sc, m)]⟩ := by
  obtain ⟨j, rfl⟩ : ∃ j, n = j + 1 := ⟨n - 1, by omega⟩
  show acquireN j sc m (acquire sc m ⟨F, H⟩) = _
  rw [acquire_fresh F H sc m hF, acquireN_at_end j F H sc m hF hH 1,
      show 1 + j = j + 1 from by omega]

theorem nodup_head_fresh (F rest : List Frame) (f0 : Frame)
    (hnd : ((F ++ f0 :: rest).map Frame.scope).Nodup) :
    ∀ f ∈ F, f.scope ≠ f0.scope := by
  intro f hf heq
  rw [List.map_append, List.map_cons] at hnd
  have h1 : f.scope ∈ F.map Frame.scope := List.mem_map_of_mem _ hf
  have h2 : f.scope ∈ f0.scope :: rest.map Frame.scope := by
    rw [heq]; exact List.mem_cons_self _ _
  exact (List.disjoint_of_nodup_append hnd) h1 h2

theorem reacquire_extends (saved : List Frame) :
    ∀ F : List Frame, (∀ f ∈ saved, 1 ≤ f.count) →
    ((F ++ saved).map Frame.scope).Nodup →
    saved.foldl (fun acc f => acquireN f.count f.scope f.mode acc)
        ⟨F, F.map (fun f => (f.scope, f.mode))⟩ =
      ⟨F ++ saved, (F ++ saved).map (fun f => (f.scope, f.mode))⟩ := by
  induction saved with
  | nil => intro F _ _; simp
  | cons f0 rest ih =>
      intro F hc hnd
      have hF : ∀ f ∈ F, f.scope ≠ f0.scope := nodup_head_fresh F rest f0 hnd
      have hH : ∀ x ∈ F.map (fun f => (f.scope, f.mode)), x.1 ≠ f0.scope := by
        intro x hx
        obtain ⟨f, hf, rfl⟩ := List.mem_map.1 hx
        exact hF f hf
      show rest.foldl (fun acc f => acquireN f.count f.scope f.mode acc)
          (acquireN f0.count f0.scope f0.mode ⟨F, F.map (fun f => (f.scope, f.mode))⟩) = _
      rw [acquireN_fresh f0.count (hc f0 (List.mem_cons_self _ _)) F _ f0.scope f0.mode hF hH]
      have hshape : (⟨F ++ [⟨f0.scope, f0.mode, f0.count⟩],
            F.map (fun f => (f.scope, f.mode)) ++ [(f0.scope, f0.mode)]⟩ : LockerState) =
          ⟨F ++ [f0], (F ++ [f0]).map (fun f => (f.scope, f.mode))⟩ := by
        simp [List.map_append]
      rw [hshape, ih (F ++ [f0]) (fun f hf => hc f (List.mem_cons_of_mem _ hf))
            (by rw [List.append_assoc]; exact hnd)]
      rw [List.append_assoc]
      rfl

/-- C5: tempRelease round-trip — for a coherently book-kept Locker, a full
tempRelease excursion (release everything, then reacquire each recorded
(scope, mode) with its count) restores the Locker's state exactly: the same
(scope, mode) pairs, with the same acquisition counts.  Other threads'
activity during the gap lives outside the Locker's own state and cannot
perturb this bookkeeping. -/
theorem tempRelease_roundtrip (s : LockerState) (h : LockerWF s) :
    tempRelease s = s := by
  obtain ⟨hH, hc, hnd⟩ := h
  unfold tempRelease
  have hext := reacquire_extends s.frames [] hc (by simpa using hnd)
  have h2 : List.foldl (fun acc f => acquireN f.count f.scope f.mode acc)
      emptyLocker s.frames =
        ⟨s.frames, s.frames.map (fun f => (f.scope, f.mode))⟩ := by
    simpa [emptyLocker] using hext
  rw [h2, ← hH]

/-- Witness for C5 on a Locker holding Global Shared and a child scope
recursively (count 2). -/
theorem tempRelease_roundtrip_witness :
    tempRelease
        (LockerState.mk
          [Frame.mk ScopeId.globalScope LockMode.shared 1,
           Frame.mk (ScopeId.dbScope "a") LockMode.shared 2]
          [(ScopeId.globalScope, LockMode.shared),
           (ScopeId.dbScope "a", LockMode.shared)]) =
      LockerState.mk
        [Frame.mk ScopeId.globalScope LockMode.shared 1,
         Frame.mk (ScopeId.dbScope "a") LockMode.shared 2]
        [(ScopeId.globalScope, LockMode.shared),
         (ScopeId.dbScope "a", LockMode.shared)] :=
  tempRelease_roundtrip _ (by refine ⟨rfl, ?_, ?_⟩ <;> decide)

theorem modeLE_refl (a : LockMode) : modeLE a a = true := by
  cases a <;> rfl

theorem modeLE_modeMax_right (a b : LockMode) : modeLE b (modeMax a b) = true := by
  cases a <;> cases b <;> rfl

theorem raiseFrame_scope (sc : ScopeId) (m : LockMode) (f : Frame) :
    (raiseFrame sc m f).scope = f.scope := by
  unfold raiseFrame; split <;> rfl

theorem bumpHold_fst (sc : ScopeId) (m : LockMode) (x : ScopeId × LockMode) :
    (bumpHold sc m x).1 = x.1 := by
  unfold bumpHold; split <;> rfl

theorem decFrame_scope (sc : ScopeId) (f : Frame) :
    (decFrame sc f).scope = f.scope := by
  unfold decFrame; split <;> rfl

theorem findFrame_map_scope (F : List Frame) (H : List (ScopeId × LockMode))
    (g : Frame → Frame) (hg : ∀ f, (g f).scope = f.scope) (sc : ScopeId) :
    findFrame ⟨F.map g, H⟩ sc = Option.map g (findFrame ⟨F, H⟩ sc) := by
  unfold findFrame
  have hp : ((fun f => decide (f.scope = sc)) ∘ g) = (fun f => decide (f.scope = sc)) := by
    funext f
    simp [Function.comp, hg f]
  rw [List.find?_map, hp]

theorem find_append_some {α : Type} (p : α → Bool) (l1 l2 : List α) (a : α)
    (h : l1.find? p = some a) : (l1 ++ l2).find? p = some a := by
  rw [List.find?_append, h]
  rfl

theorem findFrame_at_end (F : List Frame) (H : List (ScopeId × LockMode))
    (sc : ScopeId) (mo : LockMode) (k : Nat) (hF : ∀ f ∈ F, f.scope ≠ sc) :
    findFrame ⟨F ++ [⟨sc, mo, k⟩], H⟩ sc = some ⟨sc, mo, k⟩ := by
  unfold findFrame
  rw [List.find?_append, List.find?_eq_none.2 (fun f hf => by simp [hF f hf])]
  simp

theorem ensureGlobal_scopes (m : LockMode) (s : LockerState) (f : Frame)
    (hf : f ∈ (ensureGlobal m s).frames) :
    f.scope = ScopeId.globalScope ∨ ∃ f0 ∈ s.frames, f.scope = f0.scope := by
  unfold ensureGlobal at hf
  split at hf
  · split at hf
    · exact Or.inr ⟨f, hf, rfl⟩
    · obtain ⟨f1, hf1, rfl⟩ := List.mem_map.1 hf
      exact Or.inr ⟨f1, hf1, raiseFrame_scope _ _ f1⟩
  case h_2 heq =>
      unfold acquire at hf
      rw [heq] at hf
      rcases List.mem_append.1 hf with h1 | h2
      · exact Or.inr ⟨f, h1, rfl⟩
      · left
        rw [List.mem_singleton.1 h2]

theorem ensureGlobal_holds_fst (m : LockMode) (s : LockerState)
    (x : ScopeId × LockMode) (hx : x ∈ (ensureGlobal m s).rwHolds) :
    x.1 = ScopeId.globalScope ∨ ∃ y ∈ s.rwHolds, x.1 = y.1 := by
  unfold ensureGlobal at hx
  split at hx
  · split at hx
    · exact Or.inr ⟨x, hx, rfl⟩
    · obtain ⟨y, hy, rfl⟩ := List.mem_map.1 hx
      exact Or.inr ⟨y, hy, bumpHold_fst _ _ y⟩
  case h_2 heq =>
      unfold acquire at hx
      rw [heq] at hx
      rcases List.mem_append.1 hx with h1 | h2
      · exact Or.inr ⟨x, h1, rfl⟩
      · left
        rw [List.mem_singleton.1 h2]

theorem ensureGlobal_fresh_frames (m : LockMode) (s : LockerState) (nm : String)
    (h : ∀ f ∈ s.frames, f.scope ≠ ScopeId.dbScope nm) :
    ∀ f ∈ (ensureGlobal m s).frames, f.scope ≠ ScopeId.dbScope nm := by
  intro f hf
  rcases ensureGlobal_scopes m s f hf with hg | ⟨f0, h0, heq⟩
  · rw [hg]
    simp
  · rw [heq]
    exact h f0 h0

theorem ensureGlobal_fresh_holds (m : LockMode) (s : LockerState) (nm : String)
    (h : ∀ x ∈ s.rwHolds, x.1 ≠ ScopeId.dbScope nm) :
    ∀ x ∈ (ensureGlobal m s).rwHolds, x.1 ≠ ScopeId.dbScope nm := by
  intro x hx
  rcases ensureGlobal_holds_fst m s x hx with hg | ⟨y, hy, heq⟩
  · rw [hg]
    simp
  · rw [heq]
    exact h y hy

theorem ensureGlobal_global (m : LockMode) (s : LockerState) :
    ∃ g, findFrame (ensureGlobal m s) ScopeId.globalScope = some g ∧
      modeLE m g.mode = true := by
  unfold ensureGlobal
  cases hfind : findFrame s ScopeId.globalScope with
  | some f0 =>
      dsimp only
      by_cases hle : modeLE m f0.mode = true
      · rw [if_pos hle]
        exact ⟨f0, hfind, hle⟩
      · rw [if_neg hle]
        refine ⟨⟨f0.scope, modeMax f0.mode m, f0.count⟩, ?_, ?_⟩
        · have hmap := findFrame_map_scope s.frames
            (s.rwHolds.map (bumpHold ScopeId.globalScope m))
            (raiseFrame ScopeId.globalScope m) (raiseFrame_scope _ _) ScopeId.globalScope
          have hsame : findFrame ⟨s.frames,
              s.rwHolds.map (bumpHold ScopeId.globalScope m)⟩ ScopeId.globalScope =
                findFrame s ScopeId.globalScope := rfl
          rw [hsame, hfind] at hmap
          rw [hmap]
          have hsc : f0.scope = ScopeId.globalScope := by
            have := List.find?_some hfind
            simpa using this
          simp [raiseFrame, hsc]
        · exact modeLE_modeMax_right f0.mode m
  | none =>
      unfold acquire
      rw [hfind]
      refine ⟨⟨ScopeId.globalScope, m, 1⟩, ?_, modeLE_refl m⟩
      exact findFrame_at_end s.frames _ ScopeId.globalScope m 1
        (fun f hf => by
          intro hsc
          have := List.find?_eq_none.1 hfind f hf
          simp [hsc] at this)

theorem ensureGlobal_id (m : LockMode) (s : LockerState) (g : Frame)
    (hfind : findFrame s ScopeId.globalScope = some g)
    (hle : modeLE m g.mode = true) : ensureGlobal m s = s := by
  unfold ensureGlobal
  rw [hfind]
  dsimp only
  rw [if_pos hle]

theorem acquireScope_fresh_shape (nm : String) (m : LockMode) (s : LockerState)
    (hF : ∀ f ∈ s.frames, f.scope ≠ ScopeId.dbScope nm) :
    acquireScope nm m s =
      ⟨(ensureGlobal m s).frames ++ [⟨ScopeId.dbScope nm, m, 1⟩],
       (ensureGlobal m s).rwHolds ++ [(ScopeId.dbScope nm, m)]⟩ := by
  unfold acquireScope
  exact acquire_fresh (ensureGlobal m s).frames (ensureGlobal m s).rwHolds
    (ScopeId.dbScope nm) m (ensureGlobal_fresh_frames m s nm hF)

theorem acquireScope_held_shape (nm : String) (m : LockMode) (F : List Frame)
    (H : List (ScopeId × LockMode)) (g : Frame) (k : Nat)
    (hg : F.find? (fun f => decide (f.scope = ScopeId.globalScope)) = some g)
    (hle : modeLE m g.mode = true)
    (hF : ∀ f ∈ F, f.scope ≠ ScopeId.dbScope nm)
    (hH : ∀ x ∈ H, x.1 ≠ ScopeId.dbScope nm) :
    acquireScope nm m
        ⟨F ++ [⟨ScopeId.dbScope nm, m, k⟩], H ++ [(ScopeId.dbScope nm, m)]⟩ =
      ⟨F ++ [⟨ScopeId.dbScope nm, m, k + 1⟩], H ++ [(ScopeId.dbScope nm, m)]⟩ := by
  unfold acquireScope
  have hfind : findFrame
      ⟨F ++ [⟨ScopeId.dbScope nm, m, k⟩], H ++ [(ScopeId.dbScope nm, m)]⟩
        ScopeId.globalScope = some g := by
    unfold findFrame
    exact find_append_some _ F _ g hg
  rw [ensureGlobal_id m _ g hfind hle,
      acquire_at_end F H (ScopeId.dbScope nm) m m k hF hH, modeMax_self]

theorem acquireScopeN_shape (j : Nat) (nm : String) (m : LockMode) (F : List Frame)
    (H : List (ScopeId × LockMode)) (g : Frame)
    (hg : F.find? (fun f => decide (f.scope = ScopeId.globalScope)) = some g)
    (hle : modeLE m g.mode = true)
    (hF : ∀ f ∈ F, f.scope ≠ ScopeId.dbScope nm)
    (hH : ∀ x ∈ H, x.1 ≠ ScopeId.dbScope nm) :
    ∀ k, acquireScopeN j nm m
        ⟨F ++ [⟨ScopeId.dbScope nm, m, k⟩], H ++ [(ScopeId.dbScope nm, m)]⟩ =
      ⟨F ++ [⟨ScopeId.dbScope nm, m, k + j⟩], H ++ [(ScopeId.dbScope nm, m)]⟩ := by
  induction j with
  | zero => intro k; rfl
  | succ i ih =>
      intro k
      show acquireScopeN i nm m (acquireScope nm m
        ⟨F ++ [⟨ScopeId.dbScope nm, m, k⟩], H ++ [(ScopeId.dbScope nm, m)]⟩) = _
      rw [acquireScope_held_shape nm m F H g k hg hle hF hH, ih (k + 1),
          show k + 1 + i = k + (i + 1) from by omega]

theorem map_decFrame_id (F : List Frame) (sc : ScopeId)
    (h : ∀ f ∈ F, f.scope ≠ sc) : F.map (decFrame sc) = F := by
  induction F with
  | nil => rfl
  | cons a t ih =>
      simp only [List.map_cons]
      rw [show decFrame sc a = a from by
            simp [decFrame, h a (List.mem_cons_self a t)],
          ih (fun f hf => h f (List.mem_cons_of_mem a hf))]

theorem release_dec (sc : ScopeId) (F : List Frame) (H : List (ScopeId × LockMode))
    (mo : LockMode) (k : Nat) (hF : ∀ f ∈ F, f.scope ≠ sc) (hk : 2 ≤ k) :
    release sc ⟨F ++ [⟨sc, mo, k⟩], H⟩ = some ⟨F ++ [⟨sc, mo, k - 1⟩], H⟩ := by
  unfold release
  rw [findFrame_at_end F H sc mo k hF]
  dsimp only
  rw [if_neg (by omega : ¬ k ≤ 1), List.map_append, map_decFrame_id F sc hF]
  simp [decFrame]

theorem release_last (sc : ScopeId) (F : List Frame) (H : List (ScopeId × LockMode))
    (mo : LockMode) (hF : ∀ f ∈ F, f.scope ≠ sc) (hH : ∀ x ∈ H, x.1 ≠ sc) :
    release sc ⟨F ++ [⟨sc, mo, 1⟩], H ++ [(sc, mo)]⟩ = some ⟨F, H⟩ := by
  unfold release
  rw [findFrame_at_end F _ sc mo 1 hF]
  dsimp only
  rw [if_pos (le_refl 1), List.filter_append, List.filter_append]
  have e1 : F.filter (fun g => decide (g.scope ≠ sc)) = F :=
    List.filter_eq_self.2 (fun f hf => by simp [hF f hf])
  have e2 : ([⟨sc, mo, 1⟩] : List Frame).filter (fun g => decide (g.scope ≠ sc)) = [] := by
    simp
  have e3 : H.filter (fun x => decide (x.1 ≠ sc)) = H :=
    List.filter_eq_self.2 (fun x hx => by simp [hH x hx])
  have e4 : ([(sc, mo)] : List (ScopeId × LockMode)).filter
      (fun x => decide (x.1 ≠ sc)) = [] := by
    simp
  rw [e1, e2, e3, e4]
  simp

theorem releaseN_dec (sc : ScopeId) (F : List Frame) (H : List (ScopeId × LockMode))
    (mo : LockMode) (hF : ∀ f ∈ F, f.scope ≠ sc) :
    ∀ (j k : Nat), j + 1 ≤ k →
      releaseN j sc ⟨F ++ [⟨sc, mo, k⟩], H⟩ = some ⟨F ++ [⟨sc, mo, k - j⟩], H⟩ := by
  intro j
  induction j with
  | zero => intro k _; rfl
  | succ i ih =>
      intro k hk
      show (match release sc ⟨F ++ [⟨sc, mo, k⟩], H⟩ with
            | some s1 => releaseN i sc s1
            | Option.none => Option.none) = _
      rw [release_dec sc F H mo k hF (by omega)]
      dsimp only
      rw [ih (k - 1) (by omega), show k - 1 - i = k - (i + 1) from by omega]

theorem releaseN_all (sc : ScopeId) (F : List Frame) (H : List (ScopeId × LockMode))
    (mo : LockMode) (hF : ∀ f ∈ F, f.scope ≠ sc) (hH : ∀ x ∈ H, x.1 ≠ sc) :
    ∀ n, 1 ≤ n →
      releaseN n sc ⟨F ++ [⟨sc, mo, n⟩], H ++ [(sc, mo)]⟩ = some ⟨F, H⟩ := by
  intro n
  induction n with
  | zero => intro h; exact absurd h (by omega)
  | succ i ih =>
      intro _
      show (match release sc ⟨F ++ [⟨sc, mo, i + 1⟩], H ++ [(sc, mo)]⟩ with
            | some s1 => releaseN i sc s1
            | Option.none => Option.none) = some ⟨F, H⟩
      rcases Nat.eq_zero_or_pos i with h0 | hpos
      · subst h0
        rw [release_last sc F H mo hF hH]
        rfl
      · rw [release_dec sc F (H ++ [(sc, mo)]) mo (i + 1) hF (by omega)]
        dsimp only
        exact ih hpos

/-- C4: recursion accounting — acquiring the same fresh named scope twice in
the same mode from one Locker leaves exactly one underlying hold on that
scope's Reader/Writer Lock; isRecursive() is false after the first
acquisition and true after the second; and n nested acquisitions require
exactly n releases: after any k < n releases the underlying hold is still
present, and after the n-th release it is gone. -/
theorem recursion_accounting (s : LockerState) (nm : String) (m : LockMode) (n : Nat)
    (hfrF : ∀ f ∈ s.frames, f.scope ≠ ScopeId.dbScope nm)
    (hfrH : ∀ x ∈ s.rwHolds, x.1 ≠ ScopeId.dbScope nm)
    (hn : 1 ≤ n) :
    countHolds (acquireScope nm m (acquireScope nm m s)) (ScopeId.dbScope nm) = 1 ∧
    isRecursive (acquireScope nm m s) = false ∧
    isRecursive (acquireScope nm m (acquireScope nm m s)) = true ∧
    (∀ k, k < n →
      ∃ sk, releaseN k (ScopeId.dbScope nm) (acquireScopeN n nm m s) = some sk ∧
        holdsScope sk (ScopeId.dbScope nm) = true) ∧
    (∃ sfin, releaseN n (ScopeId.dbScope nm) (acquireScopeN n nm m s) = some sfin ∧
        holdsScope sfin (ScopeId.dbScope nm) = false) := by
  obtain ⟨g, hg, hle⟩ := ensureGlobal_global m s
  have hGF := ensureGlobal_fresh_frames m s nm hfrF
  have hGH := ensureGlobal_fresh_holds m s nm hfrH
  have hgF : (ensureGlobal m s).frames.find?
      (fun f => decide (f.scope = ScopeId.globalScope)) = some g := hg
  have hs1 := acquireScope_fresh_shape nm m s hfrF
  have hs2 : acquireScope nm m (acquireScope nm m s) =
      ⟨(ensureGlobal m s).frames ++ [⟨ScopeId.dbScope nm, m, 2⟩],
       (ensureGlobal m s).rwHolds ++ [(ScopeId.dbScope nm, m)]⟩ := by
    rw [hs1]
    exact acquireScope_held_shape nm m _ _ g 1 hgF hle hGF hGH
  have hN : acquireScopeN n nm m s =
      ⟨(ensureGlobal m s).frames ++ [⟨ScopeId.dbScope nm, m, n⟩],
       (ensureGlobal m s).rwHolds ++ [(ScopeId.dbScope nm, m)]⟩ := by
    obtain ⟨j, rfl⟩ : ∃ j, n = j + 1 := ⟨n - 1, by omega⟩
    show acquireScopeN j nm m (acquireScope nm m s) = _
    rw [hs1, acquireScopeN_shape j nm m _ _ g hgF hle hGF hGH 1,
        show 1 + j = j + 1 from by omega]
  refine ⟨?_, ?_, ?_, ?_, ?_⟩
  · rw [hs2]
    unfold countHolds
    dsimp only
    rw [List.filter_append,
        List.filter_eq_nil_iff.2 (fun x hx => by simp [hGH x hx])]
    simp
  · rw [hs1]
    unfold isRecursive
    dsimp only
    rw [List.getLast?_concat]
    rfl
  · rw [hs2]
    unfold isRecursive
    dsimp only
    rw [List.getLast?_concat]
    rfl
  · intro k hk
    rw [hN]
    refine ⟨⟨(ensureGlobal m s).frames ++ [⟨ScopeId.dbScope nm, m, n - k⟩],
        (ensureGlobal m s).rwHolds ++ [(ScopeId.dbScope nm, m)]⟩,
      releaseN_dec (ScopeId.dbScope nm) (ensureGlobal m s).frames
        ((ensureGlobal m s).rwHolds ++ [(ScopeId.dbScope nm, m)]) m hGF k n
        (by omega), ?_⟩
    unfold holdsScope
    dsimp only
    rw [List.any_append]
    simp
  · rw [hN]
    refine ⟨⟨(ensureGlobal m s).frames, (ensureGlobal m s).rwHolds⟩,
      releaseN_all (ScopeId.dbScope nm) (ensureGlobal m s).frames
        (ensureGlobal m s).rwHolds m hGF hGH n hn, ?_⟩
    unfold holdsScope
    dsimp only
    exact List.any_eq_false.2 (fun x hx => by simp [hGH x hx])

/-- Witness for C4 from an empty Locker: scope "foo", Shared mode, two nested
acquisitions. -/
theorem recursion_accounting_witness :
    countHolds (acquireScope "foo" LockMode.shared
        (acquireScope "foo" LockMode.shared emptyLocker)) (ScopeId.dbScope "foo") = 1 ∧
    isRecursive (acquireScope "foo" LockMode.shared emptyLocker) = false ∧
    isRecursive (acquireScope "foo" LockMode.shared
        (acquireScope "foo" LockMode.shared emptyLocker)) = true ∧
    (∀ k, k < 2 →
      ∃ sk, releaseN k (ScopeId.dbScope "foo")
          (acquireScopeN 2 "foo" LockMode.shared emptyLocker) = some sk ∧
        holdsScope sk (ScopeId.dbScope "foo") = true) ∧
    (∃ sfin, releaseN 2 (ScopeId.dbScope "foo")
        (acquireScopeN 2 "foo" LockMode.shared emptyLocker) = some sfin ∧
        holdsScope sfin (ScopeId.dbScope "foo") = false) :=
  recursion_accounting emptyLocker "foo" LockMode.shared 2
    (by intro f hf; cases hf) (by intro x hx; cases hx) (by omega)

theorem bumpFrame_scope (sc : ScopeId) (m : LockMode) (f : Frame) :
    (bumpFrame sc m f).scope = f.scope := by
  unfold bumpFrame; split <;> rfl

theorem find_filter_keep {α : Type} (p q : α → Bool) (l : List α)
    (h : ∀ x, p x = true → q x = true) :
    (l.filter q).find? p = l.find? p := by
  induction l with
  | nil => rfl
  | cons a t ih =>
      by_cases hq : q a = true
      · rw [List.filter_cons_of_pos hq]
        by_cases hp : p a = true
        · rw [List.find?_cons_of_pos _ hp, List.find?_cons_of_pos _ hp]
        · rw [List.find?_cons_of_neg _ hp, List.find?_cons_of_neg _ hp, ih]
      · have hp : ¬ p a = true := fun hpa => hq (h a hpa)
        rw [List.filter_cons_of_neg (by simpa using hq),
            List.find?_cons_of_neg _ hp, ih]

/-- The hierarchy invariant of a Locker: every held child-scope frame is
dominated by this Locker's Global frame in the mode lattice. -/
def HierInv (s : LockerState) : Prop :=
  ∀ f ∈ s.frames, f.scope ≠ ScopeId.globalScope →
    ∃ g, findFrame s ScopeId.globalScope = some g ∧ modeLE f.mode g.mode = true

theorem hierInv_map (s : LockerState) (g : Frame → Frame)
    (H2 : List (ScopeId × LockMode))
    (hscope : ∀ f, (g f).scope = f.scope)
    (hup : ∀ f, modeLE f.mode (g f).mode = true)
    (hkeep : ∀ f, f.scope ≠ ScopeId.globalScope → modeLE (g f).mode f.mode = true)
    (h : HierInv s) : HierInv ⟨s.frames.map g, H2⟩ := by
  intro f' hf' hns
  obtain ⟨f, hf, rfl⟩ := List.mem_map.1 hf'
  have hfs : f.scope ≠ ScopeId.globalScope := by
    rw [← hscope f]; exact hns
  obtain ⟨g0, hg0, hle0⟩ := h f hf hfs
  refine ⟨g g0, ?_, ?_⟩
  · rw [findFrame_map_scope s.frames H2 g hscope ScopeId.globalScope]
    have hg0b : findFrame ⟨s.frames, H2⟩ ScopeId.globalScope = some g0 := hg0
    rw [hg0b]
    rfl
  · exact modeLE_trans (hkeep f hfs) (modeLE_trans hle0 (hup g0))

theorem hierInv_acquire_global (m : LockMode) (s : LockerState)
    (h : HierInv s) : HierInv (acquire ScopeId.globalScope m s) := by
  unfold acquire
  cases hfind : findFrame s ScopeId.globalScope with
  | some f0 =>
      dsimp only
      refine hierInv_map s (bumpFrame ScopeId.globalScope m) _
        (bumpFrame_scope _ _) ?_ ?_ h
      · intro f
        unfold bumpFrame
        split
        · exact modeLE_modeMax_left _ _
        · exact modeLE_refl _
      · intro f hfs
        unfold bumpFrame
        rw [if_neg hfs]
        exact modeLE_refl _
  | none =>
      dsimp only
      intro f' hf' hns
      rcases List.mem_append.1 hf' with hIn | hNew
      · obtain ⟨g1, hg1, _⟩ := h f' hIn hns
        rw [hfind] at hg1
        cases hg1
      · rw [List.mem_singleton.1 hNew] at hns
        exact absurd rfl hns

theorem hierInv_ensureGlobal (m : LockMode) (s : LockerState)
    (h : HierInv s) : HierInv (ensureGlobal m s) := by
  unfold ensureGlobal
  cases hfind : findFrame s ScopeId.globalScope with
  | some f0 =>
      dsimp only
      split
      · exact h
      · refine hierInv_map s (raiseFrame ScopeId.globalScope m) _
          (raiseFrame_scope _ _) ?_ ?_ h
        · intro f
          unfold raiseFrame
          split
          · exact modeLE_modeMax_left _ _
          · exact modeLE_refl _
        · intro f hfs
          unfold raiseFrame
          rw [if_neg hfs]
          exact modeLE_refl _
  | none => exact hierInv_acquire_global m s h

theorem hierInv_acquire_db (nm : String) (m : LockMode) (s : LockerState) (g0 : Frame)
    (hg : findFrame s ScopeId.globalScope = some g0)
    (hle : modeLE m g0.mode = true) (h : HierInv s) :
    HierInv (acquire (ScopeId.dbScope nm) m s) := by
  have hg0sc : g0.scope = ScopeId.globalScope := by
    have := List.find?_some hg
    simpa using this
  have hg0db : g0.scope ≠ ScopeId.dbScope nm := by
    rw [hg0sc]; simp
  unfold acquire
  cases hfind : findFrame s (ScopeId.dbScope nm) with
  | some f0 =>
      dsimp only
      intro f' hf' hns
      obtain ⟨f, hf, rfl⟩ := List.mem_map.1 hf'
      have hgmap : findFrame ⟨s.frames.map (bumpFrame (ScopeId.dbScope nm) m),
          s.rwHolds.map (bumpHold (ScopeId.dbScope nm) m)⟩ ScopeId.globalScope =
            some g0 := by
        rw [findFrame_map_scope s.frames _ _ (bumpFrame_scope _ _) ScopeId.globalScope]
        have hgb : findFrame ⟨s.frames, s.rwHolds.map (bumpHold (ScopeId.dbScope nm) m)⟩
            ScopeId.globalScope = some g0 := hg
        rw [hgb]
        dsimp only [Option.map]
        rw [show bumpFrame (ScopeId.dbScope nm) m g0 = g0 from by
              unfold bumpFrame; rw [if_neg hg0db]]
      by_cases hfd : f.scope = ScopeId.dbScope nm
      · refine ⟨g0, hgmap, ?_⟩
        have hfm : (bumpFrame (ScopeId.dbScope nm) m f).mode = modeMax f.mode m := by
          unfold bumpFrame
          rw [if_pos hfd]
        rw [hfm]
        have hfs : f.scope ≠ ScopeId.globalScope := by
          rw [hfd]; simp
        obtain ⟨g1, hg1, hle1⟩ := h f hf hfs
        rw [hg] at hg1
        injection hg1 with e
        rw [← e] at hle1
        exact modeMax_le hle1 hle
      · have hff : bumpFrame (ScopeId.dbScope nm) m f = f := by
          unfold bumpFrame
          rw [if_neg hfd]
        rw [hff] at hns ⊢
        obtain ⟨g1, hg1, hle1⟩ := h f hf hns
        rw [hg] at hg1
        injection hg1 with e
        rw [← e] at hle1
        exact ⟨g0, hgmap, hle1⟩
  | none =>
      dsimp only
      intro f' hf' hns
      rcases List.mem_append.1 hf' with hIn | hNew
      · obtain ⟨g1, hg1, hle1⟩ := h f' hIn hns
        refine ⟨g1, ?_, hle1⟩
        unfold findFrame at hg1 ⊢
        exact find_append_some _ s.frames _ g1 hg1
      · rw [List.mem_singleton.1 hNew]
        refine ⟨g0, ?_, hle⟩
        unfold findFrame at hg ⊢
        exact find_append_some _ s.frames _ g0 hg

theorem hierInv_acquireScope (nm : String) (m : LockMode) (s : LockerState)
    (h : HierInv s) : HierInv (acquireScope nm m s) := by
  unfold acquireScope
  obtain ⟨g0, hg0, hle0⟩ := ensureGlobal_global m s
  exact hierInv_acquire_db nm m (ensureGlobal m s) g0 hg0 hle0
    (hierInv_ensureGlobal m s h)

theorem hierInv_release_db (nm : String) (s s1 : LockerState)
    (hrel : release (ScopeId.dbScope nm) s = some s1) (h : HierInv s) :
    HierInv s1 := by
  unfold release at hrel
  cases hfind : findFrame s (ScopeId.dbScope nm) with
  | none => rw [hfind] at hrel; cases hrel
  | some f0 =>
      rw [hfind] at hrel
      dsimp only at hrel
      split at hrel
      · injection hrel with e
        rw [← e]
        intro f' hf' hns
        have hf'F := (List.mem_filter.1 hf').1
        obtain ⟨g1, hg1, hle1⟩ := h f' hf'F hns
        refine ⟨g1, ?_, hle1⟩
        unfold findFrame at hg1 ⊢
        dsimp only
        rw [find_filter_keep _ _ s.frames ?_]
        · exact hg1
        · intro x hx
          have hxs : x.scope = ScopeId.globalScope := by simpa using hx
          simp [hxs]
      · injection hrel with e
        rw [← e]
        refine hierInv_map s (decFrame (ScopeId.dbScope nm)) s.rwHolds
          (decFrame_scope _) ?_ ?_ h
        · intro f
          unfold decFrame
          split <;> exact modeLE_refl _
        · intro f _
          unfold decFrame
          split <;> exact modeLE_refl _

/-- One Locker-level operation: acquire the Global scope, acquire a named
child scope, or release a named child scope. -/
inductive LockerOp where
  | opGlobal (m : LockMode)
  | opScope (nm : String) (m : LockMode)
  | opReleaseDb (nm : String)
deriving DecidableEq, Repr

/-- Apply one Locker operation. -/
def applyOp (s : LockerState) : LockerOp → Option LockerState
  | .opGlobal m => some (acquireGlobal m s)
  | .opScope nm m => some (acquireScope nm m s)
  | .opReleaseDb nm => release (ScopeId.dbScope nm) s

/-- Run a sequence of Locker operations. -/
def runOps (s : LockerState) : List LockerOp → Option LockerState
  | [] => some s
  | op :: ops =>
      match applyOp s op with
      | some s1 => runOps s1 ops
      | Option.none => Option.none

/-- C6: hierarchy invariant — along every sequence of Global/child
acquisitions and child releases from a fresh Locker, every held child-scope
frame is dominated by the Locker's Global frame (mode ≥ child's mode); and
acquiring a child scope from a Locker holding nothing still succeeds and
itself establishes the Global hold in the requested mode. -/
theorem hierarchy_enforced (ops : List LockerOp) (s : LockerState)
    (hrun : runOps emptyLocker ops = some s) :
    HierInv s ∧
    (∀ nm m, findFrame (acquireScope nm m emptyLocker) ScopeId.globalScope =
        some ⟨ScopeId.globalScope, m, 1⟩ ∧
      findFrame (acquireScope nm m emptyLocker) (ScopeId.dbScope nm) =
        some ⟨ScopeId.dbScope nm, m, 1⟩) := by
  constructor
  · have hgen : ∀ (ops2 : List LockerOp) (s0 s1 : LockerState),
        runOps s0 ops2 = some s1 → HierInv s0 → HierInv s1 := by
      intro ops2
      induction ops2 with
      | nil =>
          intro s0 s1 hr h0
          simp only [runOps] at hr
          injection hr with e
          rw [← e]
          exact h0
      | cons op rest ih =>
          intro s0 s1 hr h0
          simp only [runOps] at hr
          cases hap : applyOp s0 op with
          | none => rw [hap] at hr; cases hr
          | some sm =>
              rw [hap] at hr
              refine ih sm s1 hr ?_
              cases op with
              | opGlobal m =>
                  injection hap with e
                  rw [← e]
                  exact hierInv_acquire_global m s0 h0
              | opScope nm m =>
                  injection hap with e
                  rw [← e]
                  exact hierInv_acquireScope nm m s0 h0
              | opReleaseDb nm =>
                  exact hierInv_release_db nm s0 sm hap h0
    exact hgen ops emptyLocker s hrun (fun f hf => absurd hf (List.not_mem_nil f))
  · intro nm m
    have h1 : ensureGlobal m emptyLocker =
        ⟨[⟨ScopeId.globalScope, m, 1⟩], [(ScopeId.globalScope, m)]⟩ := rfl
    have h2 : acquireScope nm m emptyLocker =
        ⟨[⟨ScopeId.globalScope, m, 1⟩] ++ [⟨ScopeId.dbScope nm, m, 1⟩],
         [(ScopeId.globalScope, m)] ++ [(ScopeId.dbScope nm, m)]⟩ := by
      rw [acquireScope_fresh_shape nm m emptyLocker (fun f hf => absurd hf (List.not_mem_nil f)), h1]
    rw [h2]
    constructor
    · unfold findFrame
      dsimp only
      rw [List.singleton_append, List.find?_cons_of_pos _ (by simp)]
    · unfold findFrame
      dsimp only
      rw [List.singleton_append, List.find?_cons_of_neg _ (by simp),
          List.find?_cons_of_pos _ (by simp)]

/-- Witness for C6: a single child-scope acquisition with no preceding
Global lock. -/
theorem hierarchy_enforced_witness :
    HierInv (LockerState.mk
      [Frame.mk ScopeId.globalScope LockMode.shared 1,
       Frame.mk (ScopeId.dbScope "local") LockMode.shared 1]
      [(ScopeId.globalScope, LockMode.shared),
       (ScopeId.dbScope "local", LockMode.shared)]) ∧
    (∀ nm m, findFrame (acquireScope nm m emptyLocker) ScopeId.globalScope =
        some ⟨ScopeId.globalScope, m, 1⟩ ∧
      findFrame (acquireScope nm m emptyLocker) (ScopeId.dbScope nm) =
        some ⟨ScopeId.dbScope nm, m, 1⟩) :=
  hierarchy_enforced [LockerOp.opScope "local" LockMode.shared]
    (LockerState.mk
      [Frame.mk ScopeId.globalScope LockMode.shared 1,
       Frame.mk (ScopeId.dbScope "local") LockMode.shared 1]
      [(ScopeId.globalScope, LockMode.shared),
       (ScopeId.dbScope "local", LockMode.shared)])
    (by decide)

theorem isW_of_findFrame (s1 : LockerState) (f : Frame)
    (hf : findFrame s1 ScopeId.globalScope = some f)
    (hm : f.mode = LockMode.exclusive) : isW s1 = true := by
  unfold isW
  rw [hf]
  simp [hm]

/-- C10: no mode downgrade — a Locker holding the Global scope Exclusive
(isW) remains write-locked after recursively acquiring the Global scope or a
child scope in the weaker Shared mode; a weaker recursive acquisition never
lowers the recorded mode. -/
theorem no_downgrade (s : LockerState) (nm : String) (hw : isW s = true) :
    isW (acquireGlobal LockMode.shared s) = true ∧
    isW (acquireScope nm LockMode.shared s) = true := by
  unfold isW at hw
  cases hfind : findFrame s ScopeId.globalScope with
  | none => rw [hfind] at hw; cases hw
  | some f0 =>
      rw [hfind] at hw
      have hmode : f0.mode = LockMode.exclusive := by
        simpa using hw
      have hsc : f0.scope = ScopeId.globalScope := by
        have := List.find?_some hfind
        simpa using this
      constructor
      · unfold acquireGlobal acquire
        rw [hfind]
        dsimp only
        refine isW_of_findFrame _ (bumpFrame ScopeId.globalScope LockMode.shared f0) ?_ ?_
        · rw [findFrame_map_scope s.frames _ _ (bumpFrame_scope _ _) ScopeId.globalScope]
          have hfb : findFrame ⟨s.frames, s.rwHolds.map
              (bumpHold ScopeId.globalScope LockMode.shared)⟩ ScopeId.globalScope =
                some f0 := hfind
          rw [hfb]
          rfl
        · unfold bumpFrame
          rw [if_pos hsc]
          dsimp only
          rw [hmode]
          rfl
      · unfold acquireScope
        rw [ensureGlobal_id LockMode.shared s f0 hfind (by rw [hmode]; rfl)]
        unfold acquire
        cases hfind2 : findFrame s (ScopeId.dbScope nm) with
        | some fd =>
            dsimp only
            refine isW_of_findFrame _ f0 ?_ hmode
            rw [findFrame_map_scope s.frames _ _ (bumpFrame_scope _ _) ScopeId.globalScope]
            have hfb : findFrame ⟨s.frames, s.rwHolds.map
                (bumpHold (ScopeId.dbScope nm) LockMode.shared)⟩ ScopeId.globalScope =
                  some f0 := hfind
            rw [hfb]
            dsimp only [Option.map]
            rw [show bumpFrame (ScopeId.dbScope nm) LockMode.shared f0 = f0 from by
                  unfold bumpFrame
                  rw [if_neg (by rw [hsc]; simp)]]
        | none =>
            dsimp only
            refine isW_of_findFrame _ f0 ?_ hmode
            unfold findFrame at hfind ⊢
            exact find_append_some _ s.frames _ f0 hfind

/-- Witness for C10: a Locker holding Global Exclusive acquires Shared
recursively. -/
theorem no_downgrade_witness :
    isW (acquireGlobal LockMode.shared
      (LockerState.mk [Frame.mk ScopeId.globalScope LockMode.exclusive 1]
        [(ScopeId.globalScope, LockMode.exclusive)])) = true ∧
    isW (acquireScope "d" LockMode.shared
      (LockerState.mk [Frame.mk ScopeId.globalScope LockMode.exclusive 1]
        [(ScopeId.globalScope, LockMode.exclusive)])) = true :=
  no_downgrade
    (LockerState.mk [Frame.mk ScopeId.globalScope LockMode.exclusive 1]
      [(ScopeId.globalScope, LockMode.exclusive)]) "d" (by decide)

end MongoConc
